import Mathlib

/-!
Verification of the crypto price dashboard's data pipeline (`app.py`).

The pipeline embedded here (shallowly, over `List` and `ℚ`):
  * line 40-41: the raw table is date-parsed and sorted ascending by `date`;
    rows are modelled by `RawRow` with `date : Int` holding the calendar day
    (the `.dt.date` portion used by every comparison in the script).
  * line 42: `df[change_pct] = df[close].pct_change() * 100`.
  * line 43: `df[volatility_7d] = df[close].pct_change().rolling(7).std() * 100`.
  * line 44-45: `high_low_range`, `typical_price`.
  * lines 67-72: the filter mask over uppercased symbols and the date range.
  * lines 74-76: empty-result warning + `st.stop()`.
  * line 79: `latest = data.groupby(symbol).apply(lambda x: x.iloc[-1])`.
  * lines 80-90: at most 4 metric cards.
  * lines 160-166: CSV download of the filtered table.

Float semantics: prices are modelled as exact rationals.  A float value that
is not finite (the NaN produced by `pct_change` at position 0, the inf/NaN
produced by dividing by a zero close, and the NaN produced by `rolling` when
the window has fewer than 7 finite values) is modelled as `none`; finite
values are `some q`.  The rolling standard deviation is an irrational square
root, so the embedding carries its square (`std * 100` squared, i.e. the
sample variance times 10000), which determines the value: nullness and
equality of the nonnegative std are exactly nullness and equality of its
square.
-/

/-- A raw input row (columns `coin_id, symbol, timestamp, date, open, high,
low, close` of the loaded CSV).  `date` is the calendar day as an integer
ordinal: the script compares dates only through `.dt.date`, so the day is
the whole comparison key. -/
structure RawRow where
  coin_id : String
  symbol : String
  timestamp : String
  date : Int
  «open» : ℚ
  high : ℚ
  low : ℚ
  close : ℚ
deriving DecidableEq

/-- A derived row: a `RawRow` plus the four derived columns of lines 42-45.
`volatility_7d_sq` carries the square of `volatility_7d` (see the header
comment); `none` models a non-finite float in either derived column. -/
structure Row where
  coin_id : String
  symbol : String
  timestamp : String
  date : Int
  «open» : ℚ
  high : ℚ
  low : ℚ
  close : ℚ
  change_pct : Option ℚ
  volatility_7d_sq : Option ℚ
  high_low_range : ℚ
  typical_price : ℚ
deriving DecidableEq

/-- Python's `str.upper()` (used by `.str.upper()` and `symbol.upper()` in
the script): uppercase every character.  Defined over the character list,
extensionally `String.map Char.toUpper`. -/
def strUpper (s : String) : String := ⟨s.data.map Char.toUpper⟩

/-- Lexicographic order on character lists, as Python compares strings. -/
def charListLtb : List Char → List Char → Bool
  | [], [] => false
  | [], _ :: _ => true
  | _ :: _, [] => false
  | a :: as, b :: bs => if a < b then true else if b < a then false else charListLtb as bs

/-- Lexicographic string order (pandas sorts `groupby` keys with it). -/
def strLtb (a b : String) : Bool := charListLtb a.data b.data

/-- One step of `Series.pct_change`: the fractional change from `prev` to
`cur`, i.e. `cur / prev - 1 = (cur - prev) / prev`.  A zero `prev` makes the
float division non-finite (inf or NaN), modelled as `none`. -/
def pctStep (prev cur : ℚ) : Option ℚ :=
  if prev = 0 then none else some ((cur - prev) / prev)

/-- Tail of `pct_change`: each element paired with its predecessor. -/
def pct_changeGo (prev : ℚ) : List ℚ → List (Option ℚ)
  | [] => []
  | c :: cs => pctStep prev c :: pct_changeGo c cs

/-- `Series.pct_change()` on the `close` column: NaN (`none`) at position 0,
then the fractional change from each element to the next. -/
def pct_change : List ℚ → List (Option ℚ)
  | [] => []
  | c :: cs => none :: pct_changeGo c cs

/-- `change_pct` column (line 42): `pct_change() * 100`. -/
def change_pct (closes : List ℚ) : List (Option ℚ) :=
  (pct_change closes).map (Option.map (· * 100))

/-- Extract the values of a window if all of them are finite; `none` as soon
as one is missing (pandas: a NaN inside the window makes the count of valid
observations fall below `min_periods = 7`). -/
def allSome : List (Option ℚ) → Option (List ℚ)
  | [] => some []
  | none :: _ => none
  | some x :: rest => (allSome rest).map (x :: ·)

/-- Sample variance (`ddof = 1`, pandas `std` squared) of a list of values. -/
def sampleVar (xs : List ℚ) : ℚ :=
  let n : ℚ := xs.length
  let m : ℚ := xs.sum / n
  (xs.map (fun x => (x - m) ^ 2)).sum / (n - 1)

/-- The aggregation applied to one full 7-value window:
`(std * 100) ^ 2 = sampleVar * 10000` when all 7 values are finite,
`none` otherwise. -/
def stdSqWin (win : List (Option ℚ)) : Option ℚ :=
  (allSome win).map (fun xs => sampleVar xs * 10000)

/-- Sliding-window worker for `rolling(7)`: `acc` holds the (at most 6)
values immediately preceding the current position. -/
def rollingGo (acc : List (Option ℚ)) : List (Option ℚ) → List (Option ℚ)
  | [] => []
  | x :: xs =>
    (if (acc ++ [x]).length = 7 then stdSqWin (acc ++ [x]) else none) ::
      rollingGo (if (acc ++ [x]).length = 7 then (acc ++ [x]).tail else acc ++ [x]) xs

/-- `rolling(7).std()` squared and scaled: position `i` holds the statistic
of the window of the 7 values ending at `i`, `none` while fewer than 7
positions exist or some window value is non-finite (`min_periods = 7`). -/
def rolling7_std_sq (l : List (Option ℚ)) : List (Option ℚ) :=
  rollingGo [] l

/-- `volatility_7d` column (line 43), carried as its square:
`(pct_change().rolling(7).std() * 100) ^ 2`. -/
def volatility_7d_sq (closes : List ℚ) : List (Option ℚ) :=
  rolling7_std_sq (pct_change closes)

/-- Assemble one derived row from a raw row and its two rolling statistics;
`high_low_range` and `typical_price` (lines 44-45) are per-row. -/
def mkRow (r : RawRow) (c v : Option ℚ) : Row :=
  ⟨r.coin_id, r.symbol, r.timestamp, r.date, r.«open», r.high, r.low, r.close,
    c, v, r.high - r.low, (r.high + r.low + r.close) / 3⟩

/-- Walk the raw rows and the two derived columns in lockstep. -/
def zipDerive : List RawRow → List (Option ℚ) → List (Option ℚ) → List Row
  | r :: rs, c :: cs, v :: vs => mkRow r c v :: zipDerive rs cs vs
  | _, _, _ => []

/-- Lines 42-45: the derived table, raw columns plus the four derived ones.
The input list is the already date-sorted table (line 41). -/
def addDerived (raw : List RawRow) : List Row :=
  zipDerive raw (change_pct (raw.map (·.close))) (volatility_7d_sq (raw.map (·.close)))

/-- The filter mask of lines 67-71 applied to one row: uppercased symbol
among the uppercased selections, date at least the range start, and at most
the range end only when the range has two endpoints (`len(date_range) > 1`).
The range is the 1- or 2-element tuple returned by the date picker. -/
def keepRow (sel : List String) (dr : List Int) (r : Row) : Bool :=
  (sel.map strUpper).contains (strUpper r.symbol)
    && decide (dr.getD 0 0 ≤ r.date)
    && (if 1 < dr.length then decide (r.date ≤ dr.getD 1 0) else true)

/-- Line 72: `data = df[mask]`. -/
def filterRows (sel : List String) (dr : List Int) (rows : List Row) : List Row :=
  rows.filter (keepRow sel dr)

/-- Line 79: `data.groupby(symbol).apply(lambda x: x.iloc[-1])`.  Group keys
are the distinct raw `symbol` strings, in sorted order (pandas `groupby`
sorts keys by default); each key maps to the last row of its group in table
order (`iloc[-1]`, groupby preserves the within-group row order). -/
def latestPerSymbol (rows : List Row) : List (String × Row) :=
  (List.insertionSort (fun a b => strLtb a b = true) (rows.map (·.symbol)).dedup).filterMap
    (fun s => ((rows.filter (·.symbol = s)).getLast?).map (fun r => (s, r)))

/-- Column order of the filtered frame serialized at line 160: the eight
input columns followed by the four derived columns added in lines 42-45. -/
def exportColumns : List String :=
  ["coin_id", "symbol", "timestamp", "date", "open", "high", "low", "close",
   "change_pct", "volatility_7d", "high_low_range", "typical_price"]

/-- The column set of the loaded input table. -/
def inputColumns : List String :=
  ["coin_id", "symbol", "timestamp", "date", "open", "high", "low", "close"]

/-- The download artifact of lines 160-166. -/
structure ExportFile where
  filename : String
  mime : String
  columns : List String
  rows : List Row
deriving DecidableEq

/-- Everything drawn after the empty-filter check: metric cards (lines
80-90), one candlestick chart per uppercased symbol (line 96), the detail
table and the download button. -/
structure RenderOutput where
  records : List Row
  cards : List (String × Row)
  chartCoins : List String
  exportFile : ExportFile
deriving DecidableEq

/-- A render pass either halts at the empty-filter warning (lines 74-76,
`st.warning` then `st.stop()`) or renders the full output. -/
inductive RenderResult where
  | halted (warning : String)
  | rendered (out : RenderOutput)
deriving DecidableEq

/-- The render pass from the derived table and the sidebar selection:
filter (lines 67-72), halt on empty (74-76), otherwise metric cards capped
at 4 (80-90), candlestick coins (96), and the CSV download of the filtered
table (160-166). -/
def renderPass (df : List Row) (sel : List String) (dr : List Int) : RenderResult :=
  let data := filterRows sel dr df
  if data = [] then
    RenderResult.halted ("No data for selected filters.")
  else
    RenderResult.rendered
      ⟨data, (latestPerSymbol data).take 4,
        (data.map (fun r => strUpper r.symbol)).dedup,
        ⟨"crypto_price_data.csv", "text/csv", exportColumns, data⟩⟩

/-! ### Basic length and indexing lemmas for the derived columns -/

theorem pct_changeGo_length (cs : List ℚ) (prev : ℚ) :
    (pct_changeGo prev cs).length = cs.length := by
  induction cs generalizing prev with
  | nil => rfl
  | cons c cs ih => simp [pct_changeGo, ih]

theorem pct_change_length (closes : List ℚ) :
    (pct_change closes).length = closes.length := by
  cases closes with
  | nil => rfl
  | cons c cs => simp [pct_change, pct_changeGo_length]

theorem change_pct_length (closes : List ℚ) :
    (change_pct closes).length = closes.length := by
  simp [change_pct, pct_change_length]

theorem rollingGo_length (l acc : List (Option ℚ)) :
    (rollingGo acc l).length = l.length := by
  induction l generalizing acc with
  | nil => rfl
  | cons x xs ih => simp [rollingGo, ih]

theorem volatility_7d_sq_length (closes : List ℚ) :
    (volatility_7d_sq closes).length = closes.length := by
  simp [volatility_7d_sq, rolling7_std_sq, rollingGo_length, pct_change_length]

theorem pct_changeGo_getD (cs : List ℚ) (prev : ℚ) (i : ℕ) (hi : i < cs.length) :
    (pct_changeGo prev cs).getD i none =
      pctStep ((prev :: cs).getD i 0) (cs.getD i 0) := by
  induction cs generalizing prev i with
  | nil => simp at hi
  | cons c cs ih =>
    cases i with
    | zero => rfl
    | succ j =>
      simp only [pct_changeGo, List.getD_cons_succ]
      exact ih c j (by simpa using hi)

theorem pct_change_getD (closes : List ℚ) (i : ℕ) (h0 : 0 < i) (hi : i < closes.length) :
    (pct_change closes).getD i none =
      pctStep (closes.getD (i - 1) 0) (closes.getD i 0) := by
  cases closes with
  | nil => simp at hi
  | cons c cs =>
    cases i with
    | zero => exact absurd h0 (by simp)
    | succ j =>
      simp only [pct_change, List.getD_cons_succ, Nat.add_sub_cancel]
      exact pct_changeGo_getD cs c j (by simpa using hi)

theorem getD_map_option (f : Option ℚ → Option ℚ) (hf : f none = none)
    (l : List (Option ℚ)) (i : ℕ) :
    (l.map f).getD i none = f (l.getD i none) := by
  induction l generalizing i with
  | nil => simp [hf]
  | cons x xs ih =>
    cases i with
    | zero => rfl
    | succ j => simpa using ih j

/-! ### Projecting the derived columns back out of the derived table -/

theorem zipDerive_map_change_pct (rs : List RawRow) (cs vs : List (Option ℚ))
    (h1 : cs.length = rs.length) (h2 : vs.length = rs.length) :
    (zipDerive rs cs vs).map (·.change_pct) = cs := by
  induction rs generalizing cs vs with
  | nil =>
    cases cs with
    | nil => rfl
    | cons c cs => simp at h1
  | cons r rs ih =>
    cases cs with
    | nil => simp at h1
    | cons c cs =>
      cases vs with
      | nil => simp at h2
      | cons v vs =>
        simp only [zipDerive, List.map_cons]
        exact congrArg (c :: ·) (ih cs vs (by simpa using h1) (by simpa using h2))

theorem zipDerive_map_volatility (rs : List RawRow) (cs vs : List (Option ℚ))
    (h1 : cs.length = rs.length) (h2 : vs.length = rs.length) :
    (zipDerive rs cs vs).map (·.volatility_7d_sq) = vs := by
  induction rs generalizing cs vs with
  | nil =>
    cases vs with
    | nil => rfl
    | cons v vs => simp at h2
  | cons r rs ih =>
    cases cs with
    | nil => simp at h1
    | cons c cs =>
      cases vs with
      | nil => simp at h2
      | cons v vs =>
        simp only [zipDerive, List.map_cons]
        exact congrArg (v :: ·) (ih cs vs (by simpa using h1) (by simpa using h2))

theorem addDerived_map_change_pct (raw : List RawRow) :
    (addDerived raw).map (·.change_pct) = change_pct (raw.map (·.close)) := by
  exact zipDerive_map_change_pct raw _ _
    (by simp [change_pct_length]) (by simp [volatility_7d_sq_length])

theorem addDerived_map_volatility (raw : List RawRow) :
    (addDerived raw).map (·.volatility_7d_sq) = volatility_7d_sq (raw.map (·.close)) := by
  exact zipDerive_map_volatility raw _ _
    (by simp [change_pct_length]) (by simp [volatility_7d_sq_length])

theorem change_pct_getD_zero (closes : List ℚ) :
    (change_pct closes).getD 0 none = none := by
  cases closes with
  | nil => rfl
  | cons c cs => rfl

theorem change_pct_getD (closes : List ℚ) (i : ℕ) (h0 : 0 < i) (hi : i < closes.length) :
    (change_pct closes).getD i none =
      Option.map (· * 100) (pctStep (closes.getD (i - 1) 0) (closes.getD i 0)) := by
  unfold change_pct
  rw [getD_map_option _ rfl, pct_change_getD closes i h0 hi]

/-! ### C1 and C10: the `change_pct` column -/

theorem pctStep_of_ne (p c : ℚ) (h : p ≠ 0) : pctStep p c = some ((c - p) / p) := by
  simp [pctStep, h]

theorem pctStep_of_eq (p c : ℚ) (h : p = 0) : pctStep p c = none := by
  simp [pctStep, h]

/-- C1: on every table sorted ascending by date, the derived `change_pct`
column is null at index 0, and at every index `i > 0` whose preceding close
is nonzero (so that the percentage is a finite number, cf. C10) it equals
`(close[i] - close[i-1]) / close[i-1] * 100`, where `close[i-1]` is the
close of the immediately preceding row of the globally date-sorted table,
not restricted to the same symbol. -/
theorem change_pct_column_correct (raw : List RawRow)
    (hs : List.Pairwise (fun a b => a.date ≤ b.date) raw) :
    ((addDerived raw).map (·.change_pct)).getD 0 none = none ∧
    ∀ i, 0 < i → i < raw.length →
      (raw.map (·.close)).getD (i - 1) 0 ≠ 0 →
      ((addDerived raw).map (·.change_pct)).getD i none =
        some (((raw.map (·.close)).getD i 0 - (raw.map (·.close)).getD (i - 1) 0) /
          (raw.map (·.close)).getD (i - 1) 0 * 100) := by
  rw [addDerived_map_change_pct]
  refine ⟨change_pct_getD_zero _, fun i h0 hi hnz => ?_⟩
  rw [change_pct_getD _ i h0 (by simpa using hi), pctStep_of_ne _ _ hnz]
  rfl

/-- Three-row BTC table with closes 100, 110, 99 on consecutive days. -/
def rawW : List RawRow :=
  [⟨"bitcoin", "BTC", "t0", 0, 100, 120, 90, 100⟩,
   ⟨"bitcoin", "BTC", "t1", 1, 110, 115, 95, 110⟩,
   ⟨"bitcoin", "BTC", "t2", 2, 99, 112, 92, 99⟩]

/-- Witness for C1 at the concrete table `rawW`, index 1. -/
theorem change_pct_column_correct_witness :
    List.Pairwise (fun a b => a.date ≤ b.date) rawW ∧
    (0 : ℕ) < 1 ∧ (1 : ℕ) < rawW.length ∧
    (rawW.map (·.close)).getD 0 0 ≠ 0 ∧
    ((addDerived rawW).map (·.change_pct)).getD 1 none =
      some (((rawW.map (·.close)).getD 1 0 - (rawW.map (·.close)).getD 0 0) /
        (rawW.map (·.close)).getD 0 0 * 100) :=
  ⟨by decide, by decide, by decide, by norm_num [rawW],
    (change_pct_column_correct rawW (by decide)).2 1 (by decide) (by decide)
      (by norm_num [rawW])⟩

/-- C10: the division in the `change_pct` computation is unguarded.  A zero
close at position `i - 1` makes `change_pct[i]` non-finite (modelled
`none`), while every other index `j > 0` still carries the percentage step
computed from its own two adjacent closes, unaffected. -/
theorem change_pct_div_by_zero (raw : List RawRow)
    (hs : List.Pairwise (fun a b => a.date ≤ b.date) raw) (i : ℕ)
    (h0 : 0 < i) (hi : i < raw.length)
    (hz : (raw.map (·.close)).getD (i - 1) 0 = 0) :
    ((addDerived raw).map (·.change_pct)).getD i none = none ∧
    ∀ j, 0 < j → j < raw.length → j ≠ i →
      ((addDerived raw).map (·.change_pct)).getD j none =
        Option.map (· * 100)
          (pctStep ((raw.map (·.close)).getD (j - 1) 0) ((raw.map (·.close)).getD j 0)) := by
  rw [addDerived_map_change_pct]
  constructor
  · rw [change_pct_getD _ i h0 (by simpa using hi), pctStep_of_eq _ _ hz]
    rfl
  · intro j hj0 hj hne
    exact change_pct_getD _ j hj0 (by simpa using hj)

/-- Table whose middle close is zero. -/
def rawZ : List RawRow :=
  [⟨"bitcoin", "BTC", "t0", 0, 100, 120, 90, 100⟩,
   ⟨"bitcoin", "BTC", "t1", 1, 0, 115, 95, 0⟩,
   ⟨"bitcoin", "BTC", "t2", 2, 50, 112, 92, 50⟩]

/-- Witness for C10 at `rawZ`: the zero close at index 1 nulls
`change_pct[2]` and leaves index 1 on the usual formula. -/
theorem change_pct_div_by_zero_witness :
    List.Pairwise (fun a b => a.date ≤ b.date) rawZ ∧
    (0 : ℕ) < 2 ∧ (2 : ℕ) < rawZ.length ∧
    (rawZ.map (·.close)).getD 1 0 = 0 ∧
    ((addDerived rawZ).map (·.change_pct)).getD 2 none = none ∧
    ((addDerived rawZ).map (·.change_pct)).getD 1 none =
      Option.map (· * 100)
        (pctStep ((rawZ.map (·.close)).getD 0 0) ((rawZ.map (·.close)).getD 1 0)) :=
  ⟨by decide, by decide, by decide, by norm_num [rawZ],
    (change_pct_div_by_zero rawZ (by decide) 2 (by decide) (by decide)
      (by norm_num [rawZ])).1,
    (change_pct_div_by_zero rawZ (by decide) 2 (by decide) (by decide)
      (by norm_num [rawZ])).2 1 (by decide) (by decide) (by decide)⟩

/-! ### C2: the rolling volatility column -/

theorem rollingGo_getD (l : List (Option ℚ)) (acc : List (Option ℚ))
    (ha : acc.length ≤ 6) (i : ℕ) (hi : i < l.length) :
    (rollingGo acc l).getD i none =
      if 6 ≤ acc.length + i then
        stdSqWin (((acc ++ l).drop (acc.length + i - 6)).take 7)
      else none := by
  induction l generalizing acc i with
  | nil => simp at hi
  | cons x xs ih =>
    by_cases hc : acc.length = 6
    · have hlen : (acc ++ [x]).length = 7 := by simp [hc]
      cases i with
      | zero =>
        simp only [rollingGo, if_pos hlen, List.getD_cons_zero]
        rw [if_pos (by omega)]
        congr 1
        have h0 : acc.length + 0 - 6 = 0 := by omega
        rw [h0, List.drop_zero, List.take_append_eq_append_take,
          List.take_all_of_le (by omega), hc]
        rfl
      | succ j =>
        cases acc with
        | nil => simp at hc
        | cons a t =>
          have ht : t.length = 5 := by simpa using hc
          simp only [rollingGo, if_pos hlen, List.getD_cons_succ]
          have htail : ((a :: t) ++ [x]).tail = t ++ [x] := rfl
          rw [htail]
          rw [ih (t ++ [x]) (by simp [ht]) j (by simpa using hi)]
          have e1 : (t ++ [x]).length + j = 6 + j := by
            simp only [List.length_append, List.length_cons, List.length_nil, ht]
          have e2 : (a :: t).length + (j + 1) = 6 + (j + 1) := by
            simp only [List.length_cons, ht]
          rw [e1, e2, if_pos (by omega), if_pos (by omega)]
          have e3 : 6 + j - 6 = j := by omega
          have e4 : 6 + (j + 1) - 6 = j + 1 := by omega
          rw [e3, e4]
          have e5 : t ++ [x] ++ xs = t ++ x :: xs := by
            rw [List.append_assoc, List.singleton_append]
          have e6 : (a :: t) ++ x :: xs = a :: (t ++ x :: xs) := rfl
          rw [e5, e6, List.drop_succ_cons]
    · have hlen : ¬((acc ++ [x]).length = 7) := by simp; omega
      cases i with
      | zero =>
        simp only [rollingGo, if_neg hlen, List.getD_cons_zero]
        rw [if_neg (by omega)]
      | succ j =>
        simp only [rollingGo, if_neg hlen, List.getD_cons_succ]
        have := ih (acc ++ [x]) (by simp; omega) j (by simpa using hi)
        rw [this]
        have e1 : (acc ++ [x]).length + j = acc.length + (j + 1) := by simp; omega
        have e2 : (acc ++ [x]) ++ xs = acc ++ x :: xs := by
          rw [List.append_assoc, List.singleton_append]
        rw [e1, e2]

theorem rolling7_std_sq_getD (l : List (Option ℚ)) (i : ℕ) (hi : i < l.length) :
    (rolling7_std_sq l).getD i none =
      if 6 ≤ i then stdSqWin ((l.drop (i - 6)).take 7) else none := by
  have := rollingGo_getD l [] (by simp) i hi
  simpa [rolling7_std_sq] using this

theorem sampleVar_scale (xs : List ℚ) (c : ℚ) :
    sampleVar (xs.map (· * c)) = sampleVar xs * c ^ 2 := by
  unfold sampleVar
  simp only [List.length_map, List.map_map]
  have hsum : (xs.map fun b => b * c).sum = xs.sum * c := by
    simpa using List.sum_map_mul_right xs id c
  rw [hsum]
  have hpt : ((fun x => (x - xs.sum * c / (xs.length : ℚ)) ^ 2) ∘ fun x => x * c)
      = fun x => (x - xs.sum / (xs.length : ℚ)) ^ 2 * c ^ 2 := by
    funext x
    simp only [Function.comp_apply]
    rw [mul_div_right_comm]
    ring
  rw [hpt, List.sum_map_mul_right xs _ (c ^ 2)]
  ring

theorem allSome_map_mul (w : List (Option ℚ)) (c : ℚ) :
    allSome (w.map (Option.map (· * c))) = (allSome w).map (List.map (· * c)) := by
  induction w with
  | nil => rfl
  | cons o os ih =>
    cases o with
    | none => rfl
    | some x =>
      simp only [List.map_cons, Option.map_some, allSome, ih]
      cases allSome os <;> simp

/-- C2: on every date-sorted table, the volatility column (carried as its
square) is null at every index below 6, and at every other in-range index
equals the sample standard deviation (squared: the sample variance) of the
7 trailing `change_pct` values `change_pct[i-6..i]`, expressed as a
percentage — null whenever that window contains a null change value, in
particular at `i = 6` where the window contains `change_pct[0]`, so the
first 7 rows of the whole table yield null. -/
theorem volatility_column_correct (raw : List RawRow)
    (hs : List.Pairwise (fun a b => a.date ≤ b.date) raw) :
    (∀ i, i < 6 → ((addDerived raw).map (·.volatility_7d_sq)).getD i none = none) ∧
    ∀ i, 6 ≤ i → i < raw.length →
      ((addDerived raw).map (·.volatility_7d_sq)).getD i none =
        (allSome ((((addDerived raw).map (·.change_pct)).drop (i - 6)).take 7)).map
          sampleVar := by
  rw [addDerived_map_volatility, addDerived_map_change_pct]
  constructor
  · intro i hi
    by_cases hlen : i < raw.length
    · have hl : i < (pct_change (raw.map (·.close))).length := by
        rw [pct_change_length]
        simpa using hlen
      unfold volatility_7d_sq
      rw [rolling7_std_sq_getD _ i hl, if_neg (by omega)]
    · apply List.getD_eq_default
      have hv : (volatility_7d_sq (raw.map (·.close))).length = raw.length := by
        rw [volatility_7d_sq_length, List.length_map]
      omega
  · intro i h6 hi
    have hl : i < (pct_change (raw.map (·.close))).length := by
      rw [pct_change_length]
      simpa using hi
    unfold volatility_7d_sq
    rw [rolling7_std_sq_getD _ i hl, if_pos h6]
    unfold change_pct
    rw [← List.map_drop, ← List.map_take, allSome_map_mul, Option.map_map]
    unfold stdSqWin
    congr 1
    funext xs
    simp only [Function.comp_apply, sampleVar_scale]
    norm_num

/-- Eight-row BTC table with closes 1, 2, ..., 8 on consecutive days. -/
def rawV : List RawRow :=
  [⟨"bitcoin", "BTC", "t0", 0, 1, 1, 1, 1⟩,
   ⟨"bitcoin", "BTC", "t1", 1, 2, 2, 2, 2⟩,
   ⟨"bitcoin", "BTC", "t2", 2, 3, 3, 3, 3⟩,
   ⟨"bitcoin", "BTC", "t3", 3, 4, 4, 4, 4⟩,
   ⟨"bitcoin", "BTC", "t4", 4, 5, 5, 5, 5⟩,
   ⟨"bitcoin", "BTC", "t5", 5, 6, 6, 6, 6⟩,
   ⟨"bitcoin", "BTC", "t6", 6, 7, 7, 7, 7⟩,
   ⟨"bitcoin", "BTC", "t7", 7, 8, 8, 8, 8⟩]

/-- Witness for C2 at `rawV`: null at index 3, the windowed statistic at
index 7. -/
theorem volatility_column_correct_witness :
    List.Pairwise (fun a b => a.date ≤ b.date) rawV ∧
    (3 : ℕ) < 6 ∧ (6 : ℕ) ≤ 7 ∧ (7 : ℕ) < rawV.length ∧
    ((addDerived rawV).map (·.volatility_7d_sq)).getD 3 none = none ∧
    ((addDerived rawV).map (·.volatility_7d_sq)).getD 7 none =
      (allSome ((((addDerived rawV).map (·.change_pct)).drop 1).take 7)).map
        sampleVar :=
  ⟨by decide, by decide, by decide, by decide,
    (volatility_column_correct rawV (by decide)).1 3 (by decide),
    (volatility_column_correct rawV (by decide)).2 7 (by decide) (by decide)⟩

/-! ### C3, C7, C8: the Filter Engine -/

theorem map_strUpper_of_upper (S : List String) (hS : ∀ s ∈ S, strUpper s = s) :
    S.map strUpper = S := by
  induction S with
  | nil => rfl
  | cons s t ih =>
    rw [List.map_cons, hS s (by simp), ih (fun x hx => hS x (by simp [hx]))]

theorem keepRow_two_ended (S : List String) (a b : Int) (r : Row) :
    keepRow S [a, b] r =
      ((S.map strUpper).contains (strUpper r.symbol) && decide (a ≤ r.date) &&
        decide (r.date ≤ b)) := by
  simp [keepRow]

/-- C3: with a two-ended date range `[a, b]` and a symbol set `S` given in
uppercase (as the sidebar supplies it), the Filter Engine keeps exactly the
rows whose uppercased symbol is in `S` and whose date (the day portion,
which is what `Row.date` holds) lies in `[a, b]` inclusive; the output is
never longer than the input and is a sublist of it, i.e. a subset of the
rows in their original order. -/
theorem filter_engine_correct (df : List Row) (S : List String) (a b : Int)
    (hS : ∀ s ∈ S, strUpper s = s) :
    (∀ r, r ∈ filterRows S [a, b] df ↔
      r ∈ df ∧ strUpper r.symbol ∈ S ∧ a ≤ r.date ∧ r.date ≤ b) ∧
    (filterRows S [a, b] df).length ≤ df.length ∧
    (filterRows S [a, b] df).Sublist df := by
  refine ⟨fun r => ?_, List.length_filter_le _ _, List.filter_sublist _⟩
  rw [filterRows, List.mem_filter, keepRow_two_ended, map_strUpper_of_upper S hS]
  simp [and_assoc]

/-- A concrete BTC derived row used by several witnesses. -/
def rowB : Row :=
  ⟨"bitcoin", "BTC", "t0", 0, 100, 120, 90, 100, none, none, 30, 103⟩

/-- A concrete ETH derived row used by several witnesses. -/
def rowE : Row :=
  ⟨"ethereum", "ETH", "t1", 1, 50, 60, 40, 50, some 2, none, 20, 50⟩

/-- A two-symbol two-day derived table used by several witnesses. -/
def dfW : List Row := [rowB, rowE]

/-- Witness for C3 at a concrete table, selection and range. -/
theorem filter_engine_correct_witness :
    (∀ s ∈ ["BTC"], strUpper s = s) ∧
    (rowB ∈ filterRows ["BTC"] [0, 1] dfW ↔
      rowB ∈ dfW ∧ strUpper rowB.symbol ∈ ["BTC"] ∧
        (0 : Int) ≤ rowB.date ∧ rowB.date ≤ 1) ∧
    (filterRows ["BTC"] [0, 1] dfW).length ≤ dfW.length ∧
    (filterRows ["BTC"] [0, 1] dfW).Sublist dfW :=
  ⟨by decide,
    (filter_engine_correct dfW ["BTC"] 0 1 (by decide)).1 rowB,
    (filter_engine_correct dfW ["BTC"] 0 1 (by decide)).2⟩

/-- C7: with a single-value (open-ended) date range the end bound is
unconstrained: rows are filtered only by symbol membership and the
start-date lower bound, and in particular every selected-symbol row dated
on the start date is preserved. -/
theorem filter_single_date_range (df : List Row) (sel : List String) (a : Int) :
    filterRows sel [a] df =
      df.filter (fun r =>
        (sel.map strUpper).contains (strUpper r.symbol) && decide (a ≤ r.date)) ∧
    ∀ r ∈ df, r.date = a →
      (sel.map strUpper).contains (strUpper r.symbol) = true →
      r ∈ filterRows sel [a] df := by
  have hkeep : ∀ r : Row, keepRow sel [a] r =
      ((sel.map strUpper).contains (strUpper r.symbol) && decide (a ≤ r.date)) := by
    intro r
    simp [keepRow]
  constructor
  · exact List.filter_congr (fun r _ => hkeep r)
  · intro r hr hdate hsym
    rw [filterRows, List.mem_filter]
    refine ⟨hr, ?_⟩
    rw [hkeep, hsym, hdate]
    simp

/-- Witness for C7: a single-value range keeps the start-date row. -/
theorem filter_single_date_range_witness :
    rowB ∈ dfW ∧ rowB.date = 0 ∧
    (["BTC"].map strUpper).contains (strUpper rowB.symbol) = true ∧
    rowB ∈ filterRows ["BTC"] [0] dfW :=
  ⟨by decide, by decide, by decide,
    (filter_single_date_range dfW ["BTC"] 0).2 rowB (by decide) (by decide) (by decide)⟩

/-- C8: applying the same filter selection twice yields the same output as
applying it once. -/
theorem filter_idempotent (df : List Row) (sel : List String) (dr : List Int) :
    filterRows sel dr (filterRows sel dr df) = filterRows sel dr df := by
  unfold filterRows
  rw [List.filter_filter]
  exact List.filter_congr (fun r _ => by cases keepRow sel dr r <;> simp)

/-! ### C4: the empty-filter halt -/

/-- C4: when the filter selection produces zero rows, the render pass halts
with the warning message and renders nothing — no charts, tables or metric
cards are drawn in that pass. -/
theorem empty_filter_halts (df : List Row) (sel : List String) (dr : List Int)
    (h : filterRows sel dr df = []) :
    renderPass df sel dr = RenderResult.halted ("No data for selected filters.") ∧
    ∀ out, renderPass df sel dr ≠ RenderResult.rendered out := by
  have hh : renderPass df sel dr =
      RenderResult.halted ("No data for selected filters.") := by
    unfold renderPass
    rw [h]
    simp
  exact ⟨hh, fun out hout => by rw [hh] at hout; exact RenderResult.noConfusion hout⟩

/-- Witness for C4: selecting only the absent symbol ZZZ halts the pass. -/
theorem empty_filter_halts_witness :
    filterRows ["ZZZ"] [0] dfW = [] ∧
    renderPass dfW ["ZZZ"] [0] =
      RenderResult.halted ("No data for selected filters.") :=
  ⟨by decide, (empty_filter_halts dfW ["ZZZ"] [0] (by decide)).1⟩

/-! ### C5 and C9: the latest-per-symbol aggregator -/

theorem mem_of_getLast?_eq {α : Type} (l : List α) (a : α)
    (h : l.getLast? = some a) : a ∈ l := by
  induction l with
  | nil => simp at h
  | cons x t ih =>
    cases t with
    | nil =>
      simp only [List.getLast?_singleton, Option.some_inj] at h
      simp [h]
    | cons y t' =>
      rw [List.getLast?_cons_cons] at h
      exact List.mem_cons_of_mem x (ih h)

theorem getLast?_eq_some_of_ne_nil {α : Type} (l : List α) (h : l ≠ []) :
    ∃ a, l.getLast? = some a := by
  cases l with
  | nil => exact absurd rfl h
  | cons x t => exact ⟨(x :: t).getLast (by simp), List.getLast?_eq_getLast _ _⟩

theorem pairwise_date_le_getLast (l : List Row)
    (hp : l.Pairwise (fun a b => a.date ≤ b.date)) (x : Row) (hx : x ∈ l)
    (last : Row) (h : l.getLast? = some last) : x.date ≤ last.date := by
  induction l with
  | nil => simp at hx
  | cons a t ih =>
    cases t with
    | nil =>
      simp only [List.getLast?_singleton, Option.some_inj] at h
      simp only [List.mem_singleton] at hx
      rw [hx, h]
    | cons b t' =>
      rw [List.getLast?_cons_cons] at h
      rcases List.mem_cons.mp hx with rfl | hx'
      · have hlast : last ∈ b :: t' := mem_of_getLast?_eq _ _ h
        exact (List.pairwise_cons.mp hp).1 last hlast
      · exact ih hp.of_cons hx' h

theorem latestPerSymbol_key_mem (rows : List Row) (s : String)
    (hs : s ∈ rows.map (·.symbol)) :
    ∃ r, (s, r) ∈ latestPerSymbol rows ∧
      (rows.filter (·.symbol = s)).getLast? = some r := by
  have hgroup : rows.filter (·.symbol = s) ≠ [] := by
    rcases List.mem_map.mp hs with ⟨r0, hr0, hsym⟩
    intro hemp
    have : r0 ∈ rows.filter (·.symbol = s) :=
      List.mem_filter.mpr ⟨hr0, by simp [hsym]⟩
    rw [hemp] at this
    simp at this
  rcases getLast?_eq_some_of_ne_nil _ hgroup with ⟨r, hr⟩
  refine ⟨r, ?_, hr⟩
  apply List.mem_filterMap.mpr
  refine ⟨s, ?_, ?_⟩
  · exact ((List.perm_insertionSort _ _).mem_iff).mpr (List.mem_dedup.mpr hs)
  · rw [hr]
    rfl

theorem latestPerSymbol_sound (rows : List Row) (s : String) (r : Row)
    (h : (s, r) ∈ latestPerSymbol rows) :
    r ∈ rows ∧ r.symbol = s ∧ (rows.filter (·.symbol = s)).getLast? = some r := by
  rcases List.mem_filterMap.mp h with ⟨a, ha, hfa⟩
  rcases Option.map_eq_some'.mp hfa with ⟨r', hr', heq⟩
  have has : a = s := congrArg Prod.fst heq
  have hrr : r' = r := congrArg Prod.snd heq
  subst has
  subst hrr
  have hmem : r' ∈ rows.filter (·.symbol = a) := mem_of_getLast?_eq _ _ hr'
  rcases List.mem_filter.mp hmem with ⟨hrow, hsym⟩
  exact ⟨hrow, by simpa using hsym, hr'⟩

/-- C5: on every non-empty filtered table sorted ascending by date, the
aggregator pairs each distinct symbol present with the last row of that
symbol's group — a row of the table bearing that symbol whose date is
greatest among the group — and nothing else; the render pass displays at
most the first 4 resulting groups as metric cards. -/
theorem aggregator_latest_per_symbol (df : List Row) (sel : List String) (dr : List Int)
    (hne : filterRows sel dr df ≠ [])
    (hs : List.Pairwise (fun a b => a.date ≤ b.date) (filterRows sel dr df)) :
    (∀ s, s ∈ (filterRows sel dr df).map (·.symbol) →
      ∃ r, (s, r) ∈ latestPerSymbol (filterRows sel dr df) ∧
        r ∈ filterRows sel dr df ∧ r.symbol = s ∧
        ((filterRows sel dr df).filter (·.symbol = s)).getLast? = some r ∧
        ∀ r' ∈ filterRows sel dr df, r'.symbol = s → r'.date ≤ r.date) ∧
    (∀ s r, (s, r) ∈ latestPerSymbol (filterRows sel dr df) →
      r ∈ filterRows sel dr df ∧ r.symbol = s) ∧
    ∃ out, renderPass df sel dr = RenderResult.rendered out ∧
      out.cards = (latestPerSymbol (filterRows sel dr df)).take 4 ∧
      out.cards.length ≤ 4 := by
  refine ⟨?_, ?_, ?_⟩
  · intro s hsmem
    rcases latestPerSymbol_key_mem _ s hsmem with ⟨r, hmem, hlast⟩
    rcases latestPerSymbol_sound _ s r hmem with ⟨hrow, hsym, _⟩
    refine ⟨r, hmem, hrow, hsym, hlast, ?_⟩
    intro r' hr' hsym'
    have hgrp : r' ∈ (filterRows sel dr df).filter (·.symbol = s) :=
      List.mem_filter.mpr ⟨hr', by simp [hsym']⟩
    have hpf : ((filterRows sel dr df).filter (·.symbol = s)).Pairwise
        (fun a b => a.date ≤ b.date) :=
      hs.sublist (List.filter_sublist _)
    exact pairwise_date_le_getLast _ hpf r' hgrp r hlast
  · intro s r hmem
    rcases latestPerSymbol_sound _ s r hmem with ⟨hrow, hsym, _⟩
    exact ⟨hrow, hsym⟩
  · unfold renderPass
    rw [if_neg hne]
    exact ⟨_, rfl, rfl, by simp [List.length_take]⟩

/-- Witness for C5: both symbols of the concrete table get a latest row and
the cards are the first (at most) 4 groups. -/
theorem aggregator_latest_per_symbol_witness :
    filterRows ["BTC", "ETH"] [0, 1] dfW ≠ [] ∧
    List.Pairwise (fun a b => a.date ≤ b.date) (filterRows ["BTC", "ETH"] [0, 1] dfW) ∧
    (∃ r, ("ETH", r) ∈ latestPerSymbol (filterRows ["BTC", "ETH"] [0, 1] dfW) ∧
      r ∈ filterRows ["BTC", "ETH"] [0, 1] dfW ∧ r.symbol = "ETH" ∧
      ((filterRows ["BTC", "ETH"] [0, 1] dfW).filter (·.symbol = "ETH")).getLast? = some r ∧
      ∀ r' ∈ filterRows ["BTC", "ETH"] [0, 1] dfW, r'.symbol = "ETH" →
        r'.date ≤ r.date) ∧
    ∃ out, renderPass dfW ["BTC", "ETH"] [0, 1] = RenderResult.rendered out ∧
      out.cards = (latestPerSymbol (filterRows ["BTC", "ETH"] [0, 1] dfW)).take 4 ∧
      out.cards.length ≤ 4 :=
  ⟨by decide, by decide,
    (aggregator_latest_per_symbol dfW ["BTC", "ETH"] [0, 1] (by decide) (by decide)).1
      "ETH" (by decide),
    (aggregator_latest_per_symbol dfW ["BTC", "ETH"] [0, 1] (by decide) (by decide)).2.2⟩

/-- C9: the aggregator groups by the raw symbol string, case-sensitively:
two rows whose symbols differ only in letter case produce two separate
latest-row entries, one per spelling, even though the filter's symbol test
(which compares uppercased strings) treats the two spellings identically. -/
theorem groupby_case_sensitive (data : List Row) (r1 r2 : Row)
    (h1 : r1 ∈ data) (h2 : r2 ∈ data) (hne : r1.symbol ≠ r2.symbol)
    (hup : strUpper r1.symbol = strUpper r2.symbol) :
    (∃ a, (r1.symbol, a) ∈ latestPerSymbol data) ∧
    (∃ b, (r2.symbol, b) ∈ latestPerSymbol data) ∧
    ∀ sel : List String,
      (sel.map strUpper).contains (strUpper r1.symbol) =
        (sel.map strUpper).contains (strUpper r2.symbol) := by
  refine ⟨?_, ?_, fun sel => by rw [hup]⟩
  · rcases latestPerSymbol_key_mem data r1.symbol
        (List.mem_map.mpr ⟨r1, h1, rfl⟩) with ⟨a, ha, _⟩
    exact ⟨a, ha⟩
  · rcases latestPerSymbol_key_mem data r2.symbol
        (List.mem_map.mpr ⟨r2, h2, rfl⟩) with ⟨b, hb, _⟩
    exact ⟨b, hb⟩

/-- A table containing the same coin under two spellings. -/
def dfC : List Row :=
  [⟨"bitcoin", "btc", "t0", 0, 100, 120, 90, 100, none, none, 30, 103⟩,
   ⟨"bitcoin", "BTC", "t1", 1, 110, 130, 95, 110, none, none, 35, 111⟩]

/-- Witness for C9 at the two-spelling table. -/
theorem groupby_case_sensitive_witness :
    (⟨"bitcoin", "btc", "t0", 0, 100, 120, 90, 100, none, none, 30, 103⟩ : Row) ∈ dfC ∧
    (⟨"bitcoin", "BTC", "t1", 1, 110, 130, 95, 110, none, none, 35, 111⟩ : Row) ∈ dfC ∧
    ("btc" : String) ≠ "BTC" ∧ strUpper "btc" = strUpper "BTC" ∧
    (∃ a, ("btc", a) ∈ latestPerSymbol dfC) ∧
    (∃ b, ("BTC", b) ∈ latestPerSymbol dfC) :=
  ⟨by decide, by decide, by decide, by decide,
    (groupby_case_sensitive dfC
      (⟨"bitcoin", "btc", "t0", 0, 100, 120, 90, 100, none, none, 30, 103⟩ : Row)
      (⟨"bitcoin", "BTC", "t1", 1, 110, 130, 95, 110, none, none, 35, 111⟩ : Row)
      (by decide) (by decide) (by decide) (by decide)).1,
    (groupby_case_sensitive dfC
      (⟨"bitcoin", "btc", "t0", 0, 100, 120, 90, 100, none, none, 30, 103⟩ : Row)
      (⟨"bitcoin", "BTC", "t1", 1, 110, 130, 95, 110, none, none, 35, 111⟩ : Row)
      (by decide) (by decide) (by decide) (by decide)).2.1⟩

/-! ### C6: the CSV export -/

/-- C6 counterexample: at a concrete table and selection the render pass
produces an export whose column list is `exportColumns`, which contains the
derived column `change_pct` absent from the input column set — so the
export does NOT have the same column set as the input table.  The file
name and MIME type of the claim do hold (they are part of the equality). -/
theorem export_columns_counterexample :
    renderPass dfW (["BTC"]) ([0, 1]) = RenderResult.rendered
      ⟨[rowB], [("BTC", rowB)], ["BTC"],
        ⟨"crypto_price_data.csv", "text/csv", exportColumns, [rowB]⟩⟩ ∧
    "change_pct" ∈ exportColumns ∧ "change_pct" ∉ inputColumns ∧
    exportColumns ≠ inputColumns :=
  ⟨by decide, by decide, by decide, by decide⟩

/-- C6 amended: for every selection whose filter result is non-empty, the
download serializes the currently filtered derived table as CSV whose
columns are the eight input columns followed by the four derived columns,
under the name `crypto_price_data.csv` with MIME type `text/csv`. -/
theorem export_correct (df : List Row) (sel : List String) (dr : List Int)
    (h : filterRows sel dr df ≠ []) :
    ∃ out, renderPass df sel dr = RenderResult.rendered out ∧
      out.exportFile.filename = "crypto_price_data.csv" ∧
      out.exportFile.mime = "text/csv" ∧
      out.exportFile.columns = inputColumns ++
        ["change_pct", "volatility_7d", "high_low_range", "typical_price"] ∧
      out.exportFile.rows = filterRows sel dr df := by
  have hcols : exportColumns = inputColumns ++
      ["change_pct", "volatility_7d", "high_low_range", "typical_price"] := by decide
  unfold renderPass
  rw [if_neg h]
  exact ⟨_, rfl, rfl, rfl, hcols, rfl⟩

/-- Witness for the amended C6 at a concrete table and selection. -/
theorem export_correct_witness :
    filterRows ["BTC"] [0, 1] dfW ≠ [] ∧
    ∃ out, renderPass dfW ["BTC"] [0, 1] = RenderResult.rendered out ∧
      out.exportFile.filename = "crypto_price_data.csv" ∧
      out.exportFile.mime = "text/csv" ∧
      out.exportFile.columns = inputColumns ++
        ["change_pct", "volatility_7d", "high_low_range", "typical_price"] ∧
      out.exportFile.rows = filterRows ["BTC"] [0, 1] dfW :=
  ⟨by decide, export_correct dfW ["BTC"] [0, 1] (by decide)⟩
